import Mathlib

/-!
Verification of the GPT-2 training program `train_gpt2.c`.

The C kernels operate on flat `float` arrays addressed by explicit index
arithmetic.  We model a flat buffer as a total function `ℕ → ℝ` (real-number
semantics for the float computations), token buffers as `ℕ → ℕ`, and keep the
source's index arithmetic verbatim (an access `buf[b * T * C + t * C + i]`
becomes `buf (b * T * C + t * C + i)`, and a kernel producing `out` becomes a
function from the flat output index, decoded by the same `/` and `%`
arithmetic, to the value the loop body stores there).  Cross-entropy losses
live in `EReal`, mirroring IEEE semantics where `logf 0 = -∞` so that a
zero-probability target yields an infinite loss.
-/

set_option linter.unusedVariables false

open Finset

/-- `GPT2Config`, the hyperparameter struct of `train_gpt2.c`. -/
structure GPT2Config where
  max_seq_len : ℕ
  vocab_size : ℕ
  padded_vocab_size : ℕ
  num_layers : ℕ
  num_heads : ℕ
  channels : ℕ

/-- `fill_in_parameter_sizes`: element counts of the 16 parameter tensors, in
the fixed enumeration order wte, wpe, ln1w, ln1b, qkvw, qkvb, attprojw,
attprojb, ln2w, ln2b, fcw, fcb, fcprojw, fcprojb, lnfw, lnfb. -/
def fill_in_parameter_sizes (config : GPT2Config) : List ℕ :=
  let Vp := config.padded_vocab_size
  let C := config.channels
  let maxT := config.max_seq_len
  let L := config.num_layers
  [Vp * C, maxT * C, L * C, L * C, L * (3 * C) * C, L * (3 * C),
   L * C * C, L * C, L * C, L * C, L * (4 * C) * C, L * (4 * C),
   L * C * (4 * C), L * C, C, C]

/-- `fill_in_activation_sizes`: element counts of the 23 activation tensors, in
the fixed enumeration order encoded, ln1, ln1_mean, ln1_rstd, qkv, atty,
preatt, att, attproj, residual2, ln2, ln2_mean, ln2_rstd, fch, fch_gelu,
fcproj, residual3, lnf, lnf_mean, lnf_rstd, logits, probs, losses. -/
def fill_in_activation_sizes (config : GPT2Config) (B T : ℕ) : List ℕ :=
  let C := config.channels
  let NH := config.num_heads
  let L := config.num_layers
  let Vp := config.padded_vocab_size
  [B * T * C, L * B * T * C, L * B * T, L * B * T, L * B * T * 3 * C,
   L * B * T * C, L * B * NH * T * T, L * B * NH * T * T, L * B * T * C,
   L * B * T * C, L * B * T * C, L * B * T, L * B * T, L * B * T * 4 * C,
   L * B * T * 4 * C, L * B * T * C, L * B * T * C, B * T * C, B * T,
   B * T, B * T * Vp, B * T * Vp, B * T]

/-- Base offset of view `j` inside the single contiguous buffer: the
`params_memory_iterator` of `malloc_and_point_parameters` (and the analogous
iterator of `malloc_and_point_activations`) starts at the buffer base and
advances by each earlier tensor's size, so view `j` starts at the sum of the
sizes before it. -/
def tensor_offset (sizes : List ℕ) (j : ℕ) : ℕ := (sizes.take j).sum

/-- Total parameter count: the sum of the 16 tensor sizes, as accumulated in
`gpt2_build_from_checkpoint` / `malloc_and_point_parameters`. -/
def num_parameters (config : GPT2Config) : ℕ := (fill_in_parameter_sizes config).sum

/-- Total activation count: the sum of the 23 tensor sizes. -/
def num_activations (config : GPT2Config) (B T : ℕ) : ℕ :=
  (fill_in_activation_sizes config B T).sum

/-- The 16 named parameter views of `ParameterTensors`, each a flat buffer. -/
structure ParameterTensors where
  wte : ℕ → ℝ
  wpe : ℕ → ℝ
  ln1w : ℕ → ℝ
  ln1b : ℕ → ℝ
  qkvw : ℕ → ℝ
  qkvb : ℕ → ℝ
  attprojw : ℕ → ℝ
  attprojb : ℕ → ℝ
  ln2w : ℕ → ℝ
  ln2b : ℕ → ℝ
  fcw : ℕ → ℝ
  fcb : ℕ → ℝ
  fcprojw : ℕ → ℝ
  fcprojb : ℕ → ℝ
  lnfw : ℕ → ℝ
  lnfb : ℕ → ℝ

/-- `encoder_forward`: `out[b*T*C + t*C + i] = wte[inp[b*T+t]*C + i] + wpe[t*C+i]`.
The flat output index `idx = b*T*C + t*C + i` is decoded by `bt = idx / C`,
`t = bt % T`, `i = idx % C`. -/
noncomputable def encoder_forward (inp : ℕ → ℕ) (wte wpe : ℕ → ℝ) (T C : ℕ) : ℕ → ℝ :=
  fun idx =>
    let bt := idx / C
    let t := bt % T
    let i := idx % C
    let ix := inp bt
    wte (ix * C + i) + wpe (t * C + i)

/-- `layernorm_forward` (output buffer): per position `bt`, mean `m`, population
variance `v`, `s = 1/sqrt(v + 1e-5)`, output `s*(x[i]-m)*weight[i] + bias[i]`. -/
noncomputable def layernorm_forward (inp weight bias : ℕ → ℝ) (B T C : ℕ) : ℕ → ℝ :=
  fun idx =>
    let bt := idx / C
    let i := idx % C
    let x := fun j => inp (bt * C + j)
    let m := (∑ j in Finset.range C, x j) / C
    let v := (∑ j in Finset.range C, (x j - m) * (x j - m)) / C
    let s := 1 / Real.sqrt (v + 1e-5)
    s * (x i - m) * weight i + bias i

/-- `layernorm_forward` mean cache: `mean[b*T+t] = m`. -/
noncomputable def layernorm_mean (inp : ℕ → ℝ) (C : ℕ) : ℕ → ℝ :=
  fun bt => (∑ j in Finset.range C, inp (bt * C + j)) / C

/-- `matmul_forward_naive`: `out[bt*OC + o] = bias[o] + Σ_i inp[bt*C+i] * weight[o*C+i]`,
accumulated in the source's inner-loop order (`val` starts from the bias and
adds one product per `i`). A `NULL` bias is `none` and contributes `0`. -/
noncomputable def matmul_forward_naive (inp weight : ℕ → ℝ) (bias : Option (ℕ → ℝ))
    (B T C OC : ℕ) : ℕ → ℝ :=
  fun idx =>
    let bt := idx / OC
    let o := idx % OC
    (List.range C).foldl (fun val i => val + inp (bt * C + i) * weight (o * C + i))
      (match bias with
       | some bs => bs o
       | none => 0)

/-- `matmul_forward`: falls back to the naive path when `B*T % 8 ≠ 0`; otherwise
the register-tiled path processes `bt = obt + ibt` with `obt` a multiple of the
unroll factor 8, each `result[ibt]` starting from the bias and accumulating
`inp[(obt+ibt)*C + i] * weight[i + o*C]` over `i`. -/
noncomputable def matmul_forward (inp weight : ℕ → ℝ) (bias : Option (ℕ → ℝ))
    (B T C OC : ℕ) : ℕ → ℝ :=
  if B * T % 8 ≠ 0 then matmul_forward_naive inp weight bias B T C OC
  else fun idx =>
    let bt := idx / OC
    let o := idx % OC
    let obt := bt / 8 * 8
    let ibt := bt % 8
    (List.range C).foldl
      (fun result i => result + inp ((obt + ibt) * C + i) * weight (i + o * C))
      (match bias with
       | some bs => bs o
       | none => 0)

/-- `attention_forward` pass 1 dot product: the scaled score of query `t`
against key `t2` for head `h` of batch row `b`; `hs = C / NH`,
`scale = 1 / sqrtf(hs)`, and the key lives at channel offset `+C` inside the
fused QKV buffer of row stride `C3 = C*3`. -/
noncomputable def att_score (inp : ℕ → ℝ) (T C NH b t h t2 : ℕ) : ℝ :=
  let C3 := C * 3
  let hs := C / NH
  (∑ i in Finset.range hs,
      inp (b * T * C3 + t * C3 + h * hs + i) * inp (b * T * C3 + t2 * C3 + h * hs + C + i))
    * (1 / Real.sqrt (hs : ℕ))

/-- `attention_forward` pass 1 running maximum: `maxval` starts at `-10000.0f`
and takes each score `val` with `t2 ≤ t` when `val > maxval`. -/
noncomputable def att_maxval (inp : ℕ → ℝ) (T C NH b t h : ℕ) : ℝ :=
  (List.range (t + 1)).foldl
    (fun maxval t2 =>
      if att_score inp T C NH b t h t2 > maxval then att_score inp T C NH b t h t2 else maxval)
    (-10000)

/-- `attention_forward` pass 2 accumulator: `expsum = Σ_{t2 ≤ t} exp(score - maxval)`. -/
noncomputable def att_expsum (inp : ℕ → ℝ) (T C NH b t h : ℕ) : ℝ :=
  ∑ t2 in Finset.range (t + 1),
    Real.exp (att_score inp T C NH b t h t2 - att_maxval inp T C NH b t h)

/-- `expsum_inv = expsum == 0.0f ? 0.0f : 1.0f / expsum`. -/
noncomputable def att_expsum_inv (inp : ℕ → ℝ) (T C NH b t h : ℕ) : ℝ :=
  if att_expsum inp T C NH b t h = 0 then 0 else 1 / att_expsum inp T C NH b t h

/-- The `att` buffer after `attention_forward`: the loops write row
`(b, h, t)` (flat index `b*NH*T*T + h*T*T + t*T + t2`, decoded by the `%` and
`/` arithmetic below) to `exp(score - maxval) * expsum_inv` for `t2 ≤ t`
(passes 2-3) and to `0` for `t2 > t` (the causal mask of pass 3); indices with
`b ≥ B` are outside the loop ranges and keep the prior contents `att0`. -/
noncomputable def attention_att (att0 inp : ℕ → ℝ) (B T C NH : ℕ) : ℕ → ℝ :=
  fun idx =>
    let t2 := idx % T
    let t := idx / T % T
    let h := idx / (T * T) % NH
    let b := idx / (NH * T * T)
    if b < B then
      if t2 ≤ t then
        Real.exp (att_score inp T C NH b t h t2 - att_maxval inp T C NH b t h)
          * att_expsum_inv inp T C NH b t h
      else 0
    else att0 idx

/-- The `preatt` buffer after `attention_forward`: pass 1 stores the raw score
at `preatt_bth[t2]` only for `t2 ≤ t`; every other entry keeps the prior
contents `preatt0` (no loop ever writes it). -/
noncomputable def attention_preatt (preatt0 inp : ℕ → ℝ) (B T C NH : ℕ) : ℕ → ℝ :=
  fun idx =>
    let t2 := idx % T
    let t := idx / T % T
    let h := idx / (T * T) % NH
    let b := idx / (NH * T * T)
    if b < B ∧ t2 ≤ t then att_score inp T C NH b t h t2 else preatt0 idx

/-- `attention_forward` output buffer (pass 4):
`out[b*T*C + t*C + h*hs + i] = Σ_{t2 ≤ t} att_bth[t2] * value_t2[i]`, the value
vector living at channel offset `+C*2` of the fused QKV buffer; the flat output
index is decoded by `bt = idx / C`, `h = idx % C / hs`, `i = idx % C % hs`. -/
noncomputable def attention_forward (inp : ℕ → ℝ) (B T C NH : ℕ) : ℕ → ℝ :=
  fun idx =>
    let C3 := C * 3
    let hs := C / NH
    let bt := idx / C
    let b := bt / T
    let t := bt % T
    let h := idx % C / hs
    let i := idx % C % hs
    ∑ t2 in Finset.range (t + 1),
      (Real.exp (att_score inp T C NH b t h t2 - att_maxval inp T C NH b t h)
          * att_expsum_inv inp T C NH b t h)
        * inp (b * T * C3 + t2 * C3 + h * hs + C * 2 + i)

/-- `gelu_forward`, elementwise:
`0.5*x*(1 + tanh(sqrt(2/pi) * (x + 0.044715*x^3)))`. -/
noncomputable def gelu_forward (inp : ℕ → ℝ) : ℕ → ℝ :=
  fun i =>
    let x := inp i
    let cube := 0.044715 * x * x * x
    0.5 * x * (1 + Real.tanh (Real.sqrt (2 / Real.pi) * (x + cube)))

/-- `residual_forward`, elementwise sum. -/
noncomputable def residual_forward (inp1 inp2 : ℕ → ℝ) : ℕ → ℝ :=
  fun i => inp1 i + inp2 i

/-- `softmax_forward` running maximum over the first `V` logits of row `bt`,
starting from `-10000.0f`. -/
noncomputable def softmax_maxval (logits : ℕ → ℝ) (V Vp bt : ℕ) : ℝ :=
  (List.range V).foldl
    (fun maxval i =>
      if logits (bt * Vp + i) > maxval then logits (bt * Vp + i) else maxval)
    (-10000)

/-- `softmax_forward` normalizer: `sum = Σ_{i < V} exp(logits[i] - maxval)`. -/
noncomputable def softmax_sum (logits : ℕ → ℝ) (V Vp bt : ℕ) : ℝ :=
  ∑ i in Finset.range V, Real.exp (logits (bt * Vp + i) - softmax_maxval logits V Vp bt)

/-- `softmax_forward`: row `bt` of the `(B,T,Vp)` probability buffer holds
`exp(logits - maxval) / sum` at the first `V` entries and `0` at the padded
entries `V ≤ i < Vp`. -/
noncomputable def softmax_forward (logits : ℕ → ℝ) (B T V Vp : ℕ) : ℕ → ℝ :=
  fun idx =>
    let bt := idx / Vp
    let i := idx % Vp
    if i < V then
      Real.exp (logits (bt * Vp + i) - softmax_maxval logits V Vp bt)
        / softmax_sum logits V Vp bt
    else 0

/-- The IEEE-754 behaviour of `logf` on the nonnegative inputs it receives
here: `logf 0 = -∞`, and the real logarithm on positive inputs, valued in the
extended reals. -/
noncomputable def logf (p : ℝ) : EReal :=
  if p = 0 then ⊥ else ((Real.log p : ℝ) : EReal)

/-- `crossentropy_forward`: `losses[b*T+t] = -logf(probs[bt*Vp + targets[bt]])`. -/
noncomputable def crossentropy_forward (probs : ℕ → ℝ) (targets : ℕ → ℕ) (Vp : ℕ) :
    ℕ → EReal :=
  fun bt =>
    let ix := targets bt;
    -(logf (probs (bt * Vp + ix)))

/-- The mean-loss reduction of `gpt2_forward`: `mean_loss` accumulates the
`B*T` per-position losses and then divides by `B*T` (modelled as
multiplication by the inverse of the positive count). -/
noncomputable def mean_loss (losses : ℕ → EReal) (B T : ℕ) : EReal :=
  (∑ i in Finset.range (B * T), losses i) * ((((B * T : ℕ) : ℝ)⁻¹ : ℝ) : EReal)

/-- The body of layer `l` of `gpt2_forward`: the per-layer weight pointers are
the layer-`l` offsets into the parameter views, and the ten kernel calls run in
the source's order, producing this layer's `residual3`. -/
noncomputable def layer_forward (p : ParameterTensors) (B T C NH : ℕ) (l : ℕ)
    (residual : ℕ → ℝ) : ℕ → ℝ :=
  let l_ln1w := fun i => p.ln1w (l * C + i)
  let l_ln1b := fun i => p.ln1b (l * C + i)
  let l_qkvw := fun i => p.qkvw (l * 3 * C * C + i)
  let l_qkvb := fun i => p.qkvb (l * 3 * C + i)
  let l_attprojw := fun i => p.attprojw (l * C * C + i)
  let l_attprojb := fun i => p.attprojb (l * C + i)
  let l_ln2w := fun i => p.ln2w (l * C + i)
  let l_ln2b := fun i => p.ln2b (l * C + i)
  let l_fcw := fun i => p.fcw (l * 4 * C * C + i)
  let l_fcb := fun i => p.fcb (l * 4 * C + i)
  let l_fcprojw := fun i => p.fcprojw (l * C * 4 * C + i)
  let l_fcprojb := fun i => p.fcprojb (l * C + i)
  let l_ln1 := layernorm_forward residual l_ln1w l_ln1b B T C
  let l_qkv := matmul_forward l_ln1 l_qkvw (some l_qkvb) B T C (3 * C)
  let l_atty := attention_forward l_qkv B T C NH
  let l_attproj := matmul_forward l_atty l_attprojw (some l_attprojb) B T C C
  let l_residual2 := residual_forward residual l_attproj
  let l_ln2 := layernorm_forward l_residual2 l_ln2w l_ln2b B T C
  let l_fch := matmul_forward l_ln2 l_fcw (some l_fcb) B T C (4 * C)
  let l_fch_gelu := gelu_forward l_fch
  let l_fcproj := matmul_forward l_fch_gelu l_fcprojw (some l_fcprojb) B T (4 * C) C
  residual_forward l_residual2 l_fcproj

/-- The residual stream entering layer `l` of `gpt2_forward`: the encoder
output for `l = 0`, and layer `l-1`'s `residual3` afterwards; `residual_stream
p inputs B T C NH L` is the stream after all `L` layers. -/
noncomputable def residual_stream (p : ParameterTensors) (inputs : ℕ → ℕ) (B T C NH : ℕ) :
    ℕ → ℕ → ℝ
  | 0 => encoder_forward inputs p.wte p.wpe T C
  | l + 1 => layer_forward p B T C NH l (residual_stream p inputs B T C NH l)

/-- The final layernorm `acts.lnf` of `gpt2_forward`. -/
noncomputable def gpt2_lnf (p : ParameterTensors) (cfg : GPT2Config) (inputs : ℕ → ℕ)
    (B T : ℕ) : ℕ → ℝ :=
  layernorm_forward
    (residual_stream p inputs B T cfg.channels cfg.num_heads cfg.num_layers)
    p.lnfw p.lnfb B T cfg.channels

/-- The logits of `gpt2_forward`: a bias-free matmul that reuses the token
embedding matrix `wte` as the output projection. -/
noncomputable def gpt2_logits (p : ParameterTensors) (cfg : GPT2Config) (inputs : ℕ → ℕ)
    (B T : ℕ) : ℕ → ℝ :=
  matmul_forward (gpt2_lnf p cfg inputs B T) p.wte none B T cfg.channels
    cfg.padded_vocab_size

/-- The probabilities `acts.probs` of `gpt2_forward`. -/
noncomputable def gpt2_probs (p : ParameterTensors) (cfg : GPT2Config) (inputs : ℕ → ℕ)
    (B T : ℕ) : ℕ → ℝ :=
  softmax_forward (gpt2_logits p cfg inputs B T) B T cfg.vocab_size cfg.padded_vocab_size

/-- The per-position losses `acts.losses` of `gpt2_forward`. -/
noncomputable def gpt2_losses (p : ParameterTensors) (cfg : GPT2Config)
    (inputs targets : ℕ → ℕ) (B T : ℕ) : ℕ → EReal :=
  crossentropy_forward (gpt2_probs p cfg inputs B T) targets cfg.padded_vocab_size

/-- The value `gpt2_forward` stores to `*res`: the mean loss when targets are
supplied, and the designated no-loss sentinel `-1.0f` otherwise (the source
comment reads "-1.0f will designate no loss"). -/
noncomputable def gpt2_forward (p : ParameterTensors) (cfg : GPT2Config) (inputs : ℕ → ℕ)
    (targets : Option (ℕ → ℕ)) (B T : ℕ) : EReal :=
  match targets with
  | some tg => mean_loss (gpt2_losses p cfg inputs tg B T) B T
  | none => ((-1 : ℝ) : EReal)

/-- The mutable state of `gpt2_update`: the parameter buffer, the shadow
(gradient) buffer, the two moment buffers, and — as instrumentation of the
loop, not a C datum — the list of indices at which the loop body has read the
shadow buffer (`float grad = shadow_model->params_memory[i]`, one read per
iteration). -/
structure AdamState where
  params : ℕ → ℝ
  grads : ℕ → ℝ
  m_memory : ℕ → ℝ
  v_memory : ℕ → ℝ
  reads : List ℕ

/-- One iteration of the `gpt2_update` loop: read `param` and `grad`, zero the
shadow slot, form the two moments, bias-correct them, and apply the AdamW
update `param - lr*(m_hat/(sqrt(v_hat)+eps) + weight_decay*param)`. -/
noncomputable def gpt2_update_body (learning_rate beta1 beta2 eps weight_decay : ℝ)
    (t : ℕ) (s : AdamState) (i : ℕ) : AdamState :=
  let param := s.params i
  let grad := s.grads i
  let m := beta1 * s.m_memory i + (1 - beta1) * grad
  let v := beta2 * s.v_memory i + (1 - beta2) * grad * grad
  let m_hat := m / (1 - beta1 ^ t)
  let v_hat := v / (1 - beta2 ^ t)
  let update := learning_rate * (m_hat / (Real.sqrt v_hat + eps) + weight_decay * param)
  { params := Function.update s.params i (param - update)
    grads := Function.update s.grads i 0
    m_memory := Function.update s.m_memory i m
    v_memory := Function.update s.v_memory i v
    reads := s.reads ++ [i] }

/-- `gpt2_update`: the loop body applied at `i = 0, …, num_parameters - 1`. -/
noncomputable def gpt2_update (learning_rate beta1 beta2 eps weight_decay : ℝ)
    (t num_parameters : ℕ) (s : AdamState) : AdamState :=
  (List.range num_parameters).foldl
    (gpt2_update_body learning_rate beta1 beta2 eps weight_decay t) s

/-- The worked AdamW example of the specification: weight_decay 0, one
parameter of value 1.0 with gradient 0.1, zero moments, empty read log. -/
noncomputable def adamw_example_state : AdamState :=
  ⟨fun _ => 1, fun _ => 0.1, fun _ => 0, fun _ => 0, []⟩

/-- Two flat buffers agree on batch row `b` of per-row stride `stride`
(activation buffers of shape `(B, T, …)` have per-row stride `T * …`). -/
def rowEq (stride b : ℕ) (f g : ℕ → ℝ) : Prop :=
  ∀ j, j < stride → f (b * stride + j) = g (b * stride + j)

/-- All-zero parameter tensors, for concrete instantiations. -/
noncomputable def zero_params : ParameterTensors :=
  ⟨fun _ => 0, fun _ => 0, fun _ => 0, fun _ => 0, fun _ => 0, fun _ => 0, fun _ => 0,
   fun _ => 0, fun _ => 0, fun _ => 0, fun _ => 0, fun _ => 0, fun _ => 0, fun _ => 0,
   fun _ => 0, fun _ => 0⟩

/-- A minimal config (all hyperparameters 1), for concrete instantiations. -/
def unit_config : GPT2Config := ⟨1, 1, 1, 1, 1, 1⟩

/-! ## Helper lemmas -/

lemma foldl_congr_mem {α β : Type} (l : List β) (f g : α → β → α) :
    ∀ s, (∀ acc x, x ∈ l → f acc x = g acc x) → l.foldl f s = l.foldl g s := by
  induction l with
  | nil => intro s _; rfl
  | cons a l ih =>
    intro s h
    simp only [List.foldl_cons]
    rw [h s a (by simp)]
    exact ih _ (fun acc x hx => h acc x (by simp [hx]))

lemma matmul_forward_eq_naive (inp weight : ℕ → ℝ) (bias : Option (ℕ → ℝ))
    (B T C OC : ℕ) (idx : ℕ) :
    matmul_forward inp weight bias B T C OC idx =
      matmul_forward_naive inp weight bias B T C OC idx := by
  unfold matmul_forward
  by_cases hbt : B * T % 8 ≠ 0
  · rw [if_pos hbt]
  · rw [if_neg hbt]
    show (List.range C).foldl
        (fun result i =>
          result + inp ((idx / OC / 8 * 8 + idx / OC % 8) * C + i) * weight (i + idx % OC * C))
        (match bias with
         | some bs => bs (idx % OC)
         | none => 0) =
      matmul_forward_naive inp weight bias B T C OC idx
    have hobt : idx / OC / 8 * 8 + idx / OC % 8 = idx / OC := by omega
    rw [hobt]
    exact foldl_congr_mem _ _ _ _
      (fun acc i _ => by rw [Nat.add_comm i (idx % OC * C)])

lemma tensor_offset_cons_succ (a : ℕ) (l : List ℕ) (j : ℕ) :
    tensor_offset (a :: l) (j + 1) = a + tensor_offset l j := by
  simp [tensor_offset, List.take_succ_cons]

lemma tensor_offset_add_getD (l : List ℕ) (j : ℕ) (h : j < l.length) :
    tensor_offset l j + l.getD j 0 = tensor_offset l (j + 1) := by
  induction l generalizing j with
  | nil => simp at h
  | cons a l ih =>
    cases j with
    | zero => simp [tensor_offset, List.take_succ_cons]
    | succ k =>
      have hk : k < l.length := by simpa using h
      have hrec := ih k hk
      simp only [tensor_offset_cons_succ, List.getD_cons_succ]
      omega

lemma view_cover (l : List ℕ) (addr : ℕ) (h : addr < l.sum) :
    ∃! j, j < l.length ∧ tensor_offset l j ≤ addr ∧
      addr < tensor_offset l j + l.getD j 0 := by
  induction l generalizing addr with
  | nil => simp at h
  | cons a l ih =>
    by_cases ha : addr < a
    · refine ⟨0, ⟨by simp, by simp [tensor_offset], by simpa [tensor_offset] using ha⟩, ?_⟩
      rintro (_ | k) hk
      · rfl
      · exfalso
        have h1 := hk.2.1
        rw [tensor_offset_cons_succ] at h1
        omega
    · push_neg at ha
      have h' : addr - a < l.sum := by
        simp only [List.sum_cons] at h
        omega
      obtain ⟨j, ⟨hjl, hj1, hj2⟩, hju⟩ := ih (addr - a) h'
      refine ⟨j + 1, ⟨by simpa using hjl, ?_, ?_⟩, ?_⟩
      · rw [tensor_offset_cons_succ]; omega
      · rw [tensor_offset_cons_succ, List.getD_cons_succ]; omega
      · rintro (_ | k) ⟨hkl, hk1, hk2⟩
        · exfalso
          simp [tensor_offset] at hk2
          omega
        · have hkj : k = j := by
            apply hju
            rw [tensor_offset_cons_succ] at hk1 hk2
            rw [List.getD_cons_succ] at hk2
            exact ⟨by simpa using hkl, by omega, by omega⟩
          omega

lemma gpt2_update_body_apply_ne (lr b1 b2 eps wd : ℝ) (t : ℕ) (s : AdamState) (i j : ℕ)
    (h : j ≠ i) :
    (gpt2_update_body lr b1 b2 eps wd t s i).params j = s.params j ∧
    (gpt2_update_body lr b1 b2 eps wd t s i).grads j = s.grads j ∧
    (gpt2_update_body lr b1 b2 eps wd t s i).m_memory j = s.m_memory j ∧
    (gpt2_update_body lr b1 b2 eps wd t s i).v_memory j = s.v_memory j := by
  refine ⟨?_, ?_, ?_, ?_⟩ <;> simp [gpt2_update_body, Function.update_noteq h]

lemma foldl_body_not_mem (lr b1 b2 eps wd : ℝ) (t : ℕ) (l : List ℕ) (j : ℕ) (hj : j ∉ l) :
    ∀ s : AdamState,
      ((l.foldl (gpt2_update_body lr b1 b2 eps wd t) s).params j = s.params j ∧
       (l.foldl (gpt2_update_body lr b1 b2 eps wd t) s).grads j = s.grads j ∧
       (l.foldl (gpt2_update_body lr b1 b2 eps wd t) s).m_memory j = s.m_memory j ∧
       (l.foldl (gpt2_update_body lr b1 b2 eps wd t) s).v_memory j = s.v_memory j) := by
  induction l with
  | nil => intro s; exact ⟨rfl, rfl, rfl, rfl⟩
  | cons a l ih =>
    intro s
    have hja : j ≠ a := by
      intro hc
      exact hj (by simp [hc])
    have hjl : j ∉ l := fun hc => hj (by simp [hc])
    simp only [List.foldl_cons]
    have h1 := ih hjl (gpt2_update_body lr b1 b2 eps wd t s a)
    have h2 := gpt2_update_body_apply_ne lr b1 b2 eps wd t s a j hja
    exact ⟨h1.1.trans h2.1, h1.2.1.trans h2.2.1, h1.2.2.1.trans h2.2.2.1,
      h1.2.2.2.trans h2.2.2.2⟩

lemma foldl_body_reads (lr b1 b2 eps wd : ℝ) (t : ℕ) (l : List ℕ) :
    ∀ s : AdamState,
      (l.foldl (gpt2_update_body lr b1 b2 eps wd t) s).reads = s.reads ++ l := by
  induction l with
  | nil => intro s; simp
  | cons a l ih =>
    intro s
    simp only [List.foldl_cons]
    rw [ih]
    simp [gpt2_update_body]

lemma gpt2_update_body_apply_self (lr b1 b2 eps wd : ℝ) (t : ℕ) (s : AdamState) (i : ℕ) :
    (gpt2_update_body lr b1 b2 eps wd t s i).params i =
        s.params i -
          lr * ((b1 * s.m_memory i + (1 - b1) * s.grads i) / (1 - b1 ^ t) /
              (Real.sqrt ((b2 * s.v_memory i + (1 - b2) * s.grads i * s.grads i) / (1 - b2 ^ t))
                + eps) +
            wd * s.params i) ∧
    (gpt2_update_body lr b1 b2 eps wd t s i).grads i = 0 ∧
    (gpt2_update_body lr b1 b2 eps wd t s i).m_memory i =
        b1 * s.m_memory i + (1 - b1) * s.grads i ∧
    (gpt2_update_body lr b1 b2 eps wd t s i).v_memory i =
        b2 * s.v_memory i + (1 - b2) * s.grads i * s.grads i := by
  refine ⟨?_, ?_, ?_, ?_⟩ <;> simp [gpt2_update_body]

lemma gpt2_update_spec (lr b1 b2 eps wd : ℝ) (t N : ℕ) (s : AdamState) (i : ℕ) (h : i < N) :
    (gpt2_update lr b1 b2 eps wd t N s).params i =
        s.params i -
          lr * ((b1 * s.m_memory i + (1 - b1) * s.grads i) / (1 - b1 ^ t) /
              (Real.sqrt ((b2 * s.v_memory i + (1 - b2) * s.grads i * s.grads i) / (1 - b2 ^ t))
                + eps) +
            wd * s.params i) ∧
    (gpt2_update lr b1 b2 eps wd t N s).grads i = 0 ∧
    (gpt2_update lr b1 b2 eps wd t N s).m_memory i =
        b1 * s.m_memory i + (1 - b1) * s.grads i ∧
    (gpt2_update lr b1 b2 eps wd t N s).v_memory i =
        b2 * s.v_memory i + (1 - b2) * s.grads i * s.grads i := by
  induction N with
  | zero => exact absurd h (Nat.not_lt_zero i)
  | succ N ih =>
    have hstep : gpt2_update lr b1 b2 eps wd t (N + 1) s =
        gpt2_update_body lr b1 b2 eps wd t (gpt2_update lr b1 b2 eps wd t N s) N := by
      unfold gpt2_update
      rw [List.range_succ, List.foldl_append, List.foldl_cons, List.foldl_nil]
    rcases Nat.lt_succ_iff_lt_or_eq.mp h with h' | h'
    · have hne : i ≠ N := Nat.ne_of_lt h'
      have ih' := ih h'
      have hb := gpt2_update_body_apply_ne lr b1 b2 eps wd t
        (gpt2_update lr b1 b2 eps wd t N s) N i hne
      rw [hstep]
      exact ⟨hb.1.trans ih'.1, hb.2.1.trans ih'.2.1, hb.2.2.1.trans ih'.2.2.1,
        hb.2.2.2.trans ih'.2.2.2⟩
    · subst h'
      have hu : i ∉ List.range i := by simp
      have huntouched := foldl_body_not_mem lr b1 b2 eps wd t (List.range i) i hu s
      have hself := gpt2_update_body_apply_self lr b1 b2 eps wd t
        (gpt2_update lr b1 b2 eps wd t i s) i
      have hfold : gpt2_update lr b1 b2 eps wd t i s =
          (List.range i).foldl (gpt2_update_body lr b1 b2 eps wd t) s := rfl
      rw [hfold] at hself
      rw [huntouched.1, huntouched.2.1, huntouched.2.2.1, huntouched.2.2.2] at hself
      rw [hstep, hfold]
      exact hself

/-! ## Claim theorems -/

/-- C4: for every input, weight and optional bias buffer and every shape
`(B, T, C, OC)`, the tiled `matmul_forward` and the naive triple-loop
`matmul_forward_naive` produce equal outputs at every position (exact equality
of the real-valued semantics, which implies agreement within any relative
tolerance, in particular 1e-4). -/
theorem matmul_tiled_matches_naive (inp weight : ℕ → ℝ) (bias : Option (ℕ → ℝ))
    (B T C OC idx : ℕ) :
    matmul_forward inp weight bias B T C OC idx =
        matmul_forward_naive inp weight bias B T C OC idx ∧
    |matmul_forward inp weight bias B T C OC idx -
        matmul_forward_naive inp weight bias B T C OC idx| ≤
      1e-4 * |matmul_forward_naive inp weight bias B T C OC idx| := by
  have h := matmul_forward_eq_naive inp weight bias B T C OC idx
  refine ⟨h, ?_⟩
  rw [h, sub_self, abs_zero]
  positivity

/-- C6: for every config the 16 parameter view sizes sum to the total buffer
length, each view ends exactly where the next begins (so the views are pairwise
non-overlapping and contiguous in the fixed enumeration order), and every
address below the total lies in exactly one view; the same holds for the 23
activation views given any `(B, T)`. -/
theorem layout_views_partition (config : GPT2Config) (B T : ℕ) :
    ((fill_in_parameter_sizes config).length = 16 ∧
      tensor_offset (fill_in_parameter_sizes config) 16 = num_parameters config ∧
      (∀ j, j < 16 →
        tensor_offset (fill_in_parameter_sizes config) j +
            (fill_in_parameter_sizes config).getD j 0 =
          tensor_offset (fill_in_parameter_sizes config) (j + 1)) ∧
      (∀ addr, addr < num_parameters config →
        ∃! j, j < (fill_in_parameter_sizes config).length ∧
          tensor_offset (fill_in_parameter_sizes config) j ≤ addr ∧
          addr < tensor_offset (fill_in_parameter_sizes config) j +
              (fill_in_parameter_sizes config).getD j 0)) ∧
    ((fill_in_activation_sizes config B T).length = 23 ∧
      tensor_offset (fill_in_activation_sizes config B T) 23 =
          num_activations config B T ∧
      (∀ j, j < 23 →
        tensor_offset (fill_in_activation_sizes config B T) j +
            (fill_in_activation_sizes config B T).getD j 0 =
          tensor_offset (fill_in_activation_sizes config B T) (j + 1)) ∧
      (∀ addr, addr < num_activations config B T →
        ∃! j, j < (fill_in_activation_sizes config B T).length ∧
          tensor_offset (fill_in_activation_sizes config B T) j ≤ addr ∧
          addr < tensor_offset (fill_in_activation_sizes config B T) j +
              (fill_in_activation_sizes config B T).getD j 0)) := by
  refine ⟨⟨rfl, ?_, fun j hj => tensor_offset_add_getD _ j hj,
      fun addr haddr => view_cover _ addr haddr⟩,
    ⟨rfl, ?_, fun j hj => tensor_offset_add_getD _ j hj,
      fun addr haddr => view_cover _ addr haddr⟩⟩
  · show ((fill_in_parameter_sizes config).take 16).sum = (fill_in_parameter_sizes config).sum
    rw [show (16 : ℕ) = (fill_in_parameter_sizes config).length from rfl, List.take_length]
  · show ((fill_in_activation_sizes config B T).take 23).sum =
      (fill_in_activation_sizes config B T).sum
    rw [show (23 : ℕ) = (fill_in_activation_sizes config B T).length from rfl,
      List.take_length]

/-- Witness for C6: in the GPT-2 124M config, address 0 lies in exactly one
parameter view. -/
theorem layout_views_partition_witness :
    ∃! j, j < (fill_in_parameter_sizes ⟨1024, 50257, 50304, 12, 12, 768⟩).length ∧
      tensor_offset (fill_in_parameter_sizes ⟨1024, 50257, 50304, 12, 12, 768⟩) j ≤ 0 ∧
      0 < tensor_offset (fill_in_parameter_sizes ⟨1024, 50257, 50304, 12, 12, 768⟩) j +
          (fill_in_parameter_sizes ⟨1024, 50257, 50304, 12, 12, 768⟩).getD j 0 :=
  (layout_views_partition ⟨1024, 50257, 50304, 12, 12, 768⟩ 4 64).1.2.2.2 0 (by decide)

/-- C3: for every parameter element `i` below the parameter count, one call to
`gpt2_update` with step counter `t` updates the persistent moments and the
parameter exactly by the AdamW rule, and in the specification's worked
one-step example (weight_decay 0, value 1.0, grad 0.1, lr 1e-4, beta1 0.9,
beta2 0.999, eps 1e-8, t 1) it yields m = 0.01, v = 1e-5, m_hat = 0.1,
v_hat = 0.01, an update within 1e-7 of 9.9999e-5 and a new value within 1e-7
of 0.99990001. -/
theorem gpt2_update_adamw_rule (lr b1 b2 eps wd : ℝ) (t N : ℕ) (s : AdamState) (i : ℕ)
    (h : i < N) :
    ((gpt2_update lr b1 b2 eps wd t N s).m_memory i =
        b1 * s.m_memory i + (1 - b1) * s.grads i ∧
      (gpt2_update lr b1 b2 eps wd t N s).v_memory i =
        b2 * s.v_memory i + (1 - b2) * s.grads i * s.grads i ∧
      (gpt2_update lr b1 b2 eps wd t N s).params i =
        s.params i -
          lr * ((b1 * s.m_memory i + (1 - b1) * s.grads i) / (1 - b1 ^ t) /
              (Real.sqrt ((b2 * s.v_memory i + (1 - b2) * s.grads i * s.grads i) /
                  (1 - b2 ^ t)) + eps) +
            wd * s.params i)) ∧
    ((gpt2_update 1e-4 0.9 0.999 1e-8 0 1 1 adamw_example_state).m_memory 0 = 0.01 ∧
      (gpt2_update 1e-4 0.9 0.999 1e-8 0 1 1 adamw_example_state).v_memory 0 = 1e-5 ∧
      (0.01 : ℝ) / (1 - 0.9 ^ 1) = 0.1 ∧
      (1e-5 : ℝ) / (1 - 0.999 ^ 1) = 0.01 ∧
      |1 - (gpt2_update 1e-4 0.9 0.999 1e-8 0 1 1 adamw_example_state).params 0 -
          9.9999e-5| < 1e-7 ∧
      |(gpt2_update 1e-4 0.9 0.999 1e-8 0 1 1 adamw_example_state).params 0 -
          0.99990001| < 1e-7) := by
  have hgen := gpt2_update_spec lr b1 b2 eps wd t N s i h
  refine ⟨⟨hgen.2.2.1, hgen.2.2.2, hgen.1⟩, ?_⟩
  have hs := gpt2_update_spec 1e-4 0.9 0.999 1e-8 0 1 1 adamw_example_state 0 Nat.one_pos
  simp only [adamw_example_state] at hs
  have harg : (0.999 * 0 + (1 - 0.999) * 0.1 * 0.1) / (1 - (0.999 : ℝ) ^ 1) = 0.1 ^ 2 := by
    norm_num
  rw [harg, Real.sqrt_sq (by norm_num : (0 : ℝ) ≤ 0.1)] at hs
  refine ⟨?_, ?_, by norm_num, by norm_num, ?_, ?_⟩
  · simp only [adamw_example_state]
    rw [hs.2.2.1]; norm_num
  · simp only [adamw_example_state]
    rw [hs.2.2.2]; norm_num
  · simp only [adamw_example_state]
    rw [hs.1, abs_lt]
    constructor <;> norm_num
  · simp only [adamw_example_state]
    rw [hs.1, abs_lt]
    constructor <;> norm_num

/-- Witness for C3: the AdamW rule applied at element 0 of a one-parameter
model in the specification's worked example. -/
theorem gpt2_update_adamw_rule_witness :
    (gpt2_update 1e-4 0.9 0.999 1e-8 0 1 1 adamw_example_state).m_memory 0 =
        0.9 * adamw_example_state.m_memory 0 +
          (1 - 0.9) * adamw_example_state.grads 0 :=
  ((gpt2_update_adamw_rule 1e-4 0.9 0.999 1e-8 0 1 1 adamw_example_state 0
      Nat.one_pos).1).1

/-- C7: after `gpt2_update` returns, every gradient (shadow parameter) element
below the parameter count equals 0, and the loop read each such gradient
element exactly once (the instrumented read log, empty before the call, holds
each index exactly once afterwards). -/
theorem gpt2_update_clears_grads (lr b1 b2 eps wd : ℝ) (t N : ℕ) (s : AdamState)
    (hreads : s.reads = []) (i : ℕ) (h : i < N) :
    (gpt2_update lr b1 b2 eps wd t N s).grads i = 0 ∧
    (gpt2_update lr b1 b2 eps wd t N s).reads.count i = 1 := by
  refine ⟨(gpt2_update_spec lr b1 b2 eps wd t N s i h).2.1, ?_⟩
  have hr : (gpt2_update lr b1 b2 eps wd t N s).reads = s.reads ++ List.range N :=
    foldl_body_reads lr b1 b2 eps wd t (List.range N) s
  rw [hr, hreads, List.nil_append]
  exact List.count_eq_one_of_mem (List.nodup_range N) (List.mem_range.2 h)

/-- Witness for C7: the one-parameter example model has a zeroed gradient and a
single logged read after one update. -/
theorem gpt2_update_clears_grads_witness :
    (gpt2_update 1e-4 0.9 0.999 1e-8 0 1 1 adamw_example_state).grads 0 = 0 ∧
    (gpt2_update 1e-4 0.9 0.999 1e-8 0 1 1 adamw_example_state).reads.count 0 = 1 :=
  gpt2_update_clears_grads 1e-4 0.9 0.999 1e-8 0 1 1 adamw_example_state rfl 0 Nat.one_pos

lemma att_index_decode (NH T b h t t2 : ℕ) (hh : h < NH) (ht : t < T) (ht2 : t2 < T) :
    (b * NH * T * T + h * T * T + t * T + t2) % T = t2 ∧
    (b * NH * T * T + h * T * T + t * T + t2) / T % T = t ∧
    (b * NH * T * T + h * T * T + t * T + t2) / (T * T) % NH = h ∧
    (b * NH * T * T + h * T * T + t * T + t2) / (NH * T * T) = b := by
  have hT : 0 < T := lt_of_le_of_lt (Nat.zero_le t2) ht2
  have hNH : 0 < NH := lt_of_le_of_lt (Nat.zero_le h) hh
  have h1 : b * NH * T * T + h * T * T + t * T + t2 = t2 + T * (t + T * (h + NH * b)) := by
    ring
  rw [h1]
  have e2 : (t2 + T * (t + T * (h + NH * b))) / T = t + T * (h + NH * b) := by
    rw [Nat.add_mul_div_left _ _ hT, Nat.div_eq_of_lt ht2, Nat.zero_add]
  refine ⟨?_, ?_, ?_, ?_⟩
  · rw [Nat.add_mul_mod_self_left, Nat.mod_eq_of_lt ht2]
  · rw [e2, Nat.add_mul_mod_self_left, Nat.mod_eq_of_lt ht]
  · rw [← Nat.div_div_eq_div_mul, e2, Nat.add_mul_div_left _ _ hT, Nat.div_eq_of_lt ht,
      Nat.zero_add, Nat.add_mul_mod_self_left, Nat.mod_eq_of_lt hh]
  · have hassoc : NH * T * T = T * (T * NH) := by ring
    rw [hassoc, ← Nat.div_div_eq_div_mul, e2, ← Nat.div_div_eq_div_mul,
      Nat.add_mul_div_left _ _ hT, Nat.div_eq_of_lt ht, Nat.zero_add,
      Nat.add_mul_div_left _ _ hNH, Nat.div_eq_of_lt hh, Nat.zero_add]

lemma attention_att_apply (att0 inp : ℕ → ℝ) (B T C NH b h t t2 : ℕ)
    (hb : b < B) (hh : h < NH) (ht : t < T) (ht2 : t2 < T) :
    attention_att att0 inp B T C NH (b * NH * T * T + h * T * T + t * T + t2) =
      if t2 ≤ t then
        Real.exp (att_score inp T C NH b t h t2 - att_maxval inp T C NH b t h)
          * att_expsum_inv inp T C NH b t h
      else 0 := by
  obtain ⟨e1, e2, e3, e4⟩ := att_index_decode NH T b h t t2 hh ht ht2
  simp only [attention_att, e1, e2, e3, e4, if_pos hb]

lemma attention_preatt_apply (preatt0 inp : ℕ → ℝ) (B T C NH b h t t2 : ℕ)
    (hb : b < B) (hh : h < NH) (ht : t < T) (ht2 : t2 < T) :
    attention_preatt preatt0 inp B T C NH (b * NH * T * T + h * T * T + t * T + t2) =
      if t2 ≤ t then att_score inp T C NH b t h t2
      else preatt0 (b * NH * T * T + h * T * T + t * T + t2) := by
  obtain ⟨e1, e2, e3, e4⟩ := att_index_decode NH T b h t t2 hh ht ht2
  simp only [attention_preatt, e1, e2, e3, e4, hb, true_and]

lemma row_index_decode (Vp bt i : ℕ) (hi : i < Vp) :
    (bt * Vp + i) / Vp = bt ∧ (bt * Vp + i) % Vp = i := by
  have hVp : 0 < Vp := lt_of_le_of_lt (Nat.zero_le i) hi
  constructor
  · rw [show bt * Vp + i = i + Vp * bt by ring, Nat.add_mul_div_left _ _ hVp,
      Nat.div_eq_of_lt hi, Nat.zero_add]
  · rw [show bt * Vp + i = i + Vp * bt by ring, Nat.add_mul_mod_self_left,
      Nat.mod_eq_of_lt hi]

lemma softmax_forward_apply (logits : ℕ → ℝ) (B T V Vp bt i : ℕ) (hi : i < Vp) :
    softmax_forward logits B T V Vp (bt * Vp + i) =
      if i < V then
        Real.exp (logits (bt * Vp + i) - softmax_maxval logits V Vp bt)
          / softmax_sum logits V Vp bt
      else 0 := by
  obtain ⟨e1, e2⟩ := row_index_decode Vp bt i hi
  simp only [softmax_forward, e1, e2]

lemma crossentropy_forward_ne_bot (probs : ℕ → ℝ) (targets : ℕ → ℕ) (Vp bt : ℕ) :
    crossentropy_forward probs targets Vp bt ≠ ⊥ := by
  simp only [crossentropy_forward, logf]
  by_cases h : probs (bt * Vp + targets bt) = 0
  · rw [if_pos h, EReal.neg_bot]
    exact top_ne_bot
  · rw [if_neg h, ← EReal.coe_neg]
    exact EReal.coe_ne_bot _

lemma ereal_sum_ne_bot (s : Finset ℕ) (f : ℕ → EReal) (h : ∀ i, f i ≠ ⊥) :
    (∑ i in s, f i) ≠ ⊥ := by
  classical
  induction s using Finset.induction_on with
  | empty => simp
  | insert hnotmem ih =>
    rw [Finset.sum_insert hnotmem]
    intro hc
    rcases EReal.add_eq_bot_iff.mp hc with h1 | h1
    · exact h _ h1
    · exact ih h1

lemma ereal_sum_eq_top (s : Finset ℕ) (f : ℕ → EReal) (h : ∀ i, f i ≠ ⊥) (j : ℕ)
    (hj : j ∈ s) (hjt : f j = ⊤) : (∑ i in s, f i) = ⊤ := by
  classical
  rw [← Finset.add_sum_erase s f hj, hjt]
  exact EReal.top_add_of_ne_bot (ereal_sum_ne_bot _ _ h)

/-- C2: for every attention input and all in-range `(b, h, t)`, the attention
weights written by `attention_forward` at row `(b, h, t)` sum to 1 over the
positions `t2 ≤ t`, are exactly 0 at every position `t2 > t`, and the softmax
normalizer is over the non-empty set `{0, …, t}` (its sum of exponentials is
strictly positive, so the row is never all-masked). -/
theorem attention_causal_softmax (att0 inp : ℕ → ℝ) (B T C NH b h t : ℕ)
    (hb : b < B) (hh : h < NH) (ht : t < T) :
    (∑ t2 in Finset.range (t + 1),
        attention_att att0 inp B T C NH (b * NH * T * T + h * T * T + t * T + t2)) = 1 ∧
    (∀ t2, t < t2 → t2 < T →
      attention_att att0 inp B T C NH (b * NH * T * T + h * T * T + t * T + t2) = 0) ∧
    0 < att_expsum inp T C NH b t h := by
  have hpos : 0 < att_expsum inp T C NH b t h := by
    unfold att_expsum
    exact Finset.sum_pos (fun t2 _ => Real.exp_pos _) Finset.nonempty_range_succ
  refine ⟨?_, ?_, hpos⟩
  · have hrw : ∀ t2 ∈ Finset.range (t + 1),
        attention_att att0 inp B T C NH (b * NH * T * T + h * T * T + t * T + t2) =
          Real.exp (att_score inp T C NH b t h t2 - att_maxval inp T C NH b t h) *
            att_expsum_inv inp T C NH b t h := by
      intro t2 ht2
      have hle : t2 ≤ t := Nat.lt_succ_iff.mp (Finset.mem_range.mp ht2)
      rw [attention_att_apply att0 inp B T C NH b h t t2 hb hh ht (lt_of_le_of_lt hle ht),
        if_pos hle]
    rw [Finset.sum_congr rfl hrw, ← Finset.sum_mul]
    have hsum : (∑ t2 in Finset.range (t + 1),
        Real.exp (att_score inp T C NH b t h t2 - att_maxval inp T C NH b t h)) =
          att_expsum inp T C NH b t h := rfl
    rw [hsum]
    unfold att_expsum_inv
    rw [if_neg (ne_of_gt hpos), mul_one_div, div_self (ne_of_gt hpos)]
  · intro t2 hgt ht2
    rw [attention_att_apply att0 inp B T C NH b h t t2 hb hh ht ht2, if_neg (by omega)]

/-- Witness for C2: a single-position single-head instance. -/
theorem attention_causal_softmax_witness :
    (∑ t2 in Finset.range (0 + 1),
        attention_att (fun _ => (0 : ℝ)) (fun _ => (0 : ℝ)) 1 1 1 1
          (0 * 1 * 1 * 1 + 0 * 1 * 1 + 0 * 1 + t2)) = 1 ∧
    (∀ t2, 0 < t2 → t2 < 1 →
      attention_att (fun _ => (0 : ℝ)) (fun _ => (0 : ℝ)) 1 1 1 1
        (0 * 1 * 1 * 1 + 0 * 1 * 1 + 0 * 1 + t2) = 0) ∧
    0 < att_expsum (fun _ => (0 : ℝ)) 1 1 1 0 0 0 :=
  attention_causal_softmax (fun _ => 0) (fun _ => 0) 1 1 1 1 0 0 0 (by decide) (by decide)
    (by decide)

/-- C10: `attention_forward` writes the pre-softmax score cache only at
positions `t2 ≤ t` of each row `(b, h, t)`; entries with `t2 > t` keep
whatever value `preatt0` held before the call, while the post-softmax buffer
is written to exactly 0 there.  Consequently (with at least one batch row, one
head, and `T ≥ 2`) some in-range entry of the `B*NH*T*T` score cache is left
uninitialized by the kernel. -/
theorem attention_preatt_frame (preatt0 att0 inp : ℕ → ℝ) (B T C NH b h t : ℕ)
    (hb : b < B) (hh : h < NH) (ht : t < T) :
    (∀ t2, t2 ≤ t →
      attention_preatt preatt0 inp B T C NH (b * NH * T * T + h * T * T + t * T + t2) =
        att_score inp T C NH b t h t2) ∧
    (∀ t2, t < t2 → t2 < T →
      attention_preatt preatt0 inp B T C NH (b * NH * T * T + h * T * T + t * T + t2) =
        preatt0 (b * NH * T * T + h * T * T + t * T + t2) ∧
      attention_att att0 inp B T C NH (b * NH * T * T + h * T * T + t * T + t2) = 0) ∧
    (2 ≤ T → 0 < B → 0 < NH →
      attention_preatt preatt0 inp B T C NH 1 = preatt0 1 ∧ 1 < B * NH * T * T) := by
  refine ⟨?_, ?_, ?_⟩
  · intro t2 hle
    rw [attention_preatt_apply preatt0 inp B T C NH b h t t2 hb hh ht
        (lt_of_le_of_lt hle ht), if_pos hle]
  · intro t2 hgt ht2
    constructor
    · rw [attention_preatt_apply preatt0 inp B T C NH b h t t2 hb hh ht ht2,
        if_neg (by omega)]
    · rw [attention_att_apply att0 inp B T C NH b h t t2 hb hh ht ht2, if_neg (by omega)]
  · intro hT2 hB0 hNH0
    have hT1 : 1 < T := by omega
    have hTT : 1 < T * T := by
      have h5 : T * 1 ≤ T * T := Nat.mul_le_mul_left T (by omega)
      omega
    have hNTT : 1 < NH * T * T := by
      have h5 : T * T ≤ NH * (T * T) := Nat.le_mul_of_pos_left _ hNH0
      have h6 : NH * (T * T) = NH * T * T := (mul_assoc NH T T).symm
      omega
    constructor
    · have e1 : 1 % T = 1 := Nat.mod_eq_of_lt hT1
      have e2 : 1 / T % T = 0 := by rw [Nat.div_eq_of_lt hT1, Nat.zero_mod]
      have e3 : 1 / (T * T) % NH = 0 := by rw [Nat.div_eq_of_lt hTT, Nat.zero_mod]
      have e4 : 1 / (NH * T * T) = 0 := Nat.div_eq_of_lt hNTT
      simp only [attention_preatt, e1, e2, e3, e4]
      rw [if_neg (by omega)]
    · have h5 : NH * T * T ≤ B * (NH * T * T) := Nat.le_mul_of_pos_left _ hB0
      have h6 : B * (NH * T * T) = B * NH * T * T := by ring
      omega

/-- Witness for C10: `B = NH = C = 1`, `T = 2`, row `(0,0,0)`: position
`t2 = 1` of the score cache keeps its prior value and the attention weight
there is 0. -/
theorem attention_preatt_frame_witness :
    attention_preatt (fun i => (i : ℝ)) (fun _ => (0 : ℝ)) 1 2 1 1
        (0 * 1 * 2 * 2 + 0 * 2 * 2 + 0 * 2 + 1) =
      ((0 * 1 * 2 * 2 + 0 * 2 * 2 + 0 * 2 + 1 : ℕ) : ℝ) ∧
    attention_att (fun _ => (0 : ℝ)) (fun _ => (0 : ℝ)) 1 2 1 1
        (0 * 1 * 2 * 2 + 0 * 2 * 2 + 0 * 2 + 1) = 0 := by
  exact (attention_preatt_frame (fun i => (i : ℝ)) (fun _ => 0) (fun _ => 0) 1 2 1 1 0 0 0
      (by decide) (by decide) (by decide)).2.1 1 (by decide) (by decide)

/-- C5: for every `(b, t)` position `bt`, the probability row written by
`softmax_forward` sums to 1 over the first `V` (true vocabulary) entries and
every entry at an index in `[V, Vp)` is exactly 0. -/
theorem softmax_row_normalized (logits : ℕ → ℝ) (B T V Vp bt : ℕ)
    (hV : 0 < V) (hVVp : V ≤ Vp) :
    (∑ i in Finset.range V, softmax_forward logits B T V Vp (bt * Vp + i)) = 1 ∧
    (∀ i, V ≤ i → i < Vp → softmax_forward logits B T V Vp (bt * Vp + i) = 0) := by
  have hpos : 0 < softmax_sum logits V Vp bt := by
    unfold softmax_sum
    exact Finset.sum_pos (fun i _ => Real.exp_pos _) ⟨0, Finset.mem_range.mpr hV⟩
  constructor
  · have hrw : ∀ i ∈ Finset.range V,
        softmax_forward logits B T V Vp (bt * Vp + i) =
          Real.exp (logits (bt * Vp + i) - softmax_maxval logits V Vp bt) /
            softmax_sum logits V Vp bt := by
      intro i hi
      have hiV := Finset.mem_range.mp hi
      rw [softmax_forward_apply logits B T V Vp bt i (lt_of_lt_of_le hiV hVVp), if_pos hiV]
    rw [Finset.sum_congr rfl hrw, ← Finset.sum_div]
    have hsum : (∑ i in Finset.range V,
        Real.exp (logits (bt * Vp + i) - softmax_maxval logits V Vp bt)) =
          softmax_sum logits V Vp bt := rfl
    rw [hsum, div_self (ne_of_gt hpos)]
  · intro i hVi hiVp
    rw [softmax_forward_apply logits B T V Vp bt i hiVp, if_neg (by omega)]

/-- Witness for C5: a two-entry padded row with a one-token vocabulary. -/
theorem softmax_row_normalized_witness :
    (∑ i in Finset.range 1, softmax_forward (fun _ => (0 : ℝ)) 1 1 1 2 (0 * 2 + i)) = 1 ∧
    (∀ i, 1 ≤ i → i < 2 → softmax_forward (fun _ => (0 : ℝ)) 1 1 1 2 (0 * 2 + i) = 0) :=
  softmax_row_normalized (fun _ => 0) 1 1 1 2 0 (by decide) (by decide)

/-- C8: `crossentropy_forward` produces, at every position `bt`, the negative
natural logarithm of the probability at the target index; when that
probability is zero the loss is `⊤` (the extended-real image of IEEE
`-logf 0 = +∞`) and the infinity propagates into the mean loss computed by
`gpt2_forward` rather than being clamped. -/
theorem crossentropy_neg_log_inf_propagates (probs : ℕ → ℝ) (targets : ℕ → ℕ)
    (Vp B T bt : ℕ) :
    (0 < probs (bt * Vp + targets bt) →
      crossentropy_forward probs targets Vp bt =
        ((-Real.log (probs (bt * Vp + targets bt)) : ℝ) : EReal)) ∧
    (probs (bt * Vp + targets bt) = 0 →
      crossentropy_forward probs targets Vp bt = ⊤ ∧
      (bt < B * T → mean_loss (crossentropy_forward probs targets Vp) B T = ⊤)) := by
  constructor
  · intro hpos
    simp only [crossentropy_forward, logf]
    rw [if_neg (ne_of_gt hpos), ← EReal.coe_neg]
  · intro hzero
    have htop : crossentropy_forward probs targets Vp bt = ⊤ := by
      simp only [crossentropy_forward, logf]
      rw [if_pos hzero, EReal.neg_bot]
    refine ⟨htop, fun hbt => ?_⟩
    unfold mean_loss
    have hBT : 0 < B * T := lt_of_le_of_lt (Nat.zero_le bt) hbt
    have hsum : (∑ i in Finset.range (B * T), crossentropy_forward probs targets Vp i) = ⊤ :=
      ereal_sum_eq_top _ _ (fun i => crossentropy_forward_ne_bot probs targets Vp i) bt
        (Finset.mem_range.mpr hbt) htop
    rw [hsum]
    apply EReal.top_mul_of_pos
    have hBTR : (0 : ℝ) < ((B * T : ℕ) : ℝ) := by exact_mod_cast hBT
    exact EReal.coe_pos.mpr (inv_pos.mpr hBTR)

/-- Witness for C8: a zero probability row makes the position loss and the
mean loss infinite. -/
theorem crossentropy_neg_log_inf_propagates_witness :
    crossentropy_forward (fun _ => (0 : ℝ)) (fun _ => 0) 1 0 = ⊤ ∧
    mean_loss (crossentropy_forward (fun _ => (0 : ℝ)) (fun _ => 0) 1) 1 1 = ⊤ := by
  have h := (crossentropy_neg_log_inf_propagates (fun _ => (0 : ℝ)) (fun _ => 0) 1 1 1 0).2 rfl
  exact ⟨h.1, h.2 (by decide)⟩

lemma ereal_coe_sum (s : Finset ℕ) (f : ℕ → ℝ) :
    ((∑ i in s, f i : ℝ) : EReal) = ∑ i in s, ((f i : ℝ) : EReal) := by
  classical
  induction s using Finset.induction_on with
  | empty => simp
  | insert hnm ih => rw [Finset.sum_insert hnm, Finset.sum_insert hnm, EReal.coe_add, ih]

lemma softmax_sum_pos (logits : ℕ → ℝ) (V Vp bt : ℕ) (hV : 0 < V) :
    0 < softmax_sum logits V Vp bt := by
  unfold softmax_sum
  exact Finset.sum_pos (fun i _ => Real.exp_pos _) ⟨0, Finset.mem_range.mpr hV⟩

/-- C1: `gpt2_forward` is the fixed kernel pipeline.  The residual stream
starts as the Encoder output; each layer `l` applies, in order, LayerNorm,
QKV-Matmul, Attention, attention-projection Matmul, Residual-Add, LayerNorm,
MLP-expand Matmul, GELU, MLP-contract Matmul, Residual-Add; after the layers
come the final LayerNorm, a bias-free Matmul reusing the token-embedding
matrix `wte`, and Softmax.  With targets, `*res` is the sum of the per-position
cross-entropy losses divided by `B*T` — for in-range targets the real-valued
arithmetic mean of the `B*T` per-position losses — and without targets it is
the designated no-loss sentinel `-1.0`. -/
theorem gpt2_forward_pipeline (p : ParameterTensors) (cfg : GPT2Config) (inputs : ℕ → ℕ)
    (B T : ℕ) (hin : ∀ i, i < B * T → inputs i < cfg.vocab_size) :
    (gpt2_forward p cfg inputs none B T = ((-1 : ℝ) : EReal)) ∧
    (residual_stream p inputs B T cfg.channels cfg.num_heads 0 =
      encoder_forward inputs p.wte p.wpe T cfg.channels) ∧
    (∀ l,
      residual_stream p inputs B T cfg.channels cfg.num_heads (l + 1) =
        residual_forward
          (residual_forward (residual_stream p inputs B T cfg.channels cfg.num_heads l)
            (matmul_forward
              (attention_forward
                (matmul_forward
                  (layernorm_forward
                    (residual_stream p inputs B T cfg.channels cfg.num_heads l)
                    (fun i => p.ln1w (l * cfg.channels + i))
                    (fun i => p.ln1b (l * cfg.channels + i)) B T cfg.channels)
                  (fun i => p.qkvw (l * 3 * cfg.channels * cfg.channels + i))
                  (some (fun i => p.qkvb (l * 3 * cfg.channels + i)))
                  B T cfg.channels (3 * cfg.channels))
                B T cfg.channels cfg.num_heads)
              (fun i => p.attprojw (l * cfg.channels * cfg.channels + i))
              (some (fun i => p.attprojb (l * cfg.channels + i)))
              B T cfg.channels cfg.channels))
          (matmul_forward
            (gelu_forward
              (matmul_forward
                (layernorm_forward
                  (residual_forward
                    (residual_stream p inputs B T cfg.channels cfg.num_heads l)
                    (matmul_forward
                      (attention_forward
                        (matmul_forward
                          (layernorm_forward
                            (residual_stream p inputs B T cfg.channels cfg.num_heads l)
                            (fun i => p.ln1w (l * cfg.channels + i))
                            (fun i => p.ln1b (l * cfg.channels + i)) B T cfg.channels)
                          (fun i => p.qkvw (l * 3 * cfg.channels * cfg.channels + i))
                          (some (fun i => p.qkvb (l * 3 * cfg.channels + i)))
                          B T cfg.channels (3 * cfg.channels))
                        B T cfg.channels cfg.num_heads)
                      (fun i => p.attprojw (l * cfg.channels * cfg.channels + i))
                      (some (fun i => p.attprojb (l * cfg.channels + i)))
                      B T cfg.channels cfg.channels))
                  (fun i => p.ln2w (l * cfg.channels + i))
                  (fun i => p.ln2b (l * cfg.channels + i)) B T cfg.channels)
                (fun i => p.fcw (l * 4 * cfg.channels * cfg.channels + i))
                (some (fun i => p.fcb (l * 4 * cfg.channels + i)))
                B T cfg.channels (4 * cfg.channels)))
            (fun i => p.fcprojw (l * cfg.channels * 4 * cfg.channels + i))
            (some (fun i => p.fcprojb (l * cfg.channels + i)))
            B T (4 * cfg.channels) cfg.channels)) ∧
    (∀ tg : ℕ → ℕ,
      gpt2_forward p cfg inputs (some tg) B T =
        (∑ i in Finset.range (B * T),
            crossentropy_forward
              (softmax_forward
                (matmul_forward
                  (layernorm_forward
                    (residual_stream p inputs B T cfg.channels cfg.num_heads cfg.num_layers)
                    p.lnfw p.lnfb B T cfg.channels)
                  p.wte none B T cfg.channels cfg.padded_vocab_size)
                B T cfg.vocab_size cfg.padded_vocab_size)
              tg cfg.padded_vocab_size i) *
          ((((B * T : ℕ) : ℝ)⁻¹ : ℝ) : EReal)) ∧
    (∀ tg : ℕ → ℕ, (∀ i, i < B * T → tg i < cfg.vocab_size) → 0 < cfg.vocab_size →
      cfg.vocab_size ≤ cfg.padded_vocab_size →
      gpt2_forward p cfg inputs (some tg) B T =
        (((∑ i in Finset.range (B * T),
            -Real.log (gpt2_probs p cfg inputs B T (i * cfg.padded_vocab_size + tg i))) /
          ((B * T : ℕ) : ℝ) : ℝ) : EReal)) := by
  refine ⟨rfl, rfl, fun l => rfl, fun tg => rfl, ?_⟩
  intro tg htg hV hVVp
  have hlw : ∀ i ∈ Finset.range (B * T),
      gpt2_losses p cfg inputs tg B T i =
        ((-Real.log (gpt2_probs p cfg inputs B T (i * cfg.padded_vocab_size + tg i)) : ℝ) :
          EReal) := by
    intro i hi
    have hiBT := Finset.mem_range.mp hi
    have hpos : 0 < gpt2_probs p cfg inputs B T (i * cfg.padded_vocab_size + tg i) := by
      unfold gpt2_probs
      rw [softmax_forward_apply (gpt2_logits p cfg inputs B T) B T cfg.vocab_size
          cfg.padded_vocab_size i (tg i) (lt_of_lt_of_le (htg i hiBT) hVVp),
        if_pos (htg i hiBT)]
      exact div_pos (Real.exp_pos _) (softmax_sum_pos _ _ _ _ hV)
    simp only [gpt2_losses, crossentropy_forward, logf]
    rw [if_neg (ne_of_gt hpos), ← EReal.coe_neg]
  show mean_loss (gpt2_losses p cfg inputs tg B T) B T = _
  unfold mean_loss
  rw [Finset.sum_congr rfl hlw, ← ereal_coe_sum, ← EReal.coe_mul]
  exact EReal.coe_eq_coe_iff.mpr (by rw [div_eq_mul_inv])

/-- Witness for C1: the minimal all-zero model without targets stores the
no-loss sentinel. -/
theorem gpt2_forward_pipeline_witness :
    gpt2_forward zero_params unit_config (fun _ => 0) none 1 1 = ((-1 : ℝ) : EReal) :=
  (gpt2_forward_pipeline zero_params unit_config (fun _ => 0) 1 1
      (fun _ _ => Nat.one_pos)).1

lemma row_decode (T C b j : ℕ) (hC : 0 < C) (hj : j < T * C) :
    (b * (T * C) + j) / C = b * T + j / C ∧
    (b * (T * C) + j) % C = j % C ∧
    j / C < T := by
  refine ⟨?_, ?_, ?_⟩
  · rw [show b * (T * C) + j = j + C * (b * T) by ring, Nat.add_mul_div_left _ _ hC,
      Nat.add_comm]
  · rw [show b * (T * C) + j = j + C * (b * T) by ring, Nat.add_mul_mod_self_left]
  · exact (Nat.div_lt_iff_lt_mul hC).mpr hj

lemma encoder_forward_rowEq (inputs₁ inputs₂ : ℕ → ℕ) (wte wpe : ℕ → ℝ) (T C b : ℕ)
    (hC : 0 < C)
    (hin : ∀ t, t < T → inputs₁ (b * T + t) = inputs₂ (b * T + t)) :
    rowEq (T * C) b (encoder_forward inputs₁ wte wpe T C)
      (encoder_forward inputs₂ wte wpe T C) := by
  intro j hj
  obtain ⟨e1, e2, e3⟩ := row_decode T C b j hC hj
  simp only [encoder_forward]
  rw [e1, hin (j / C) e3]

lemma layernorm_forward_rowEq (inp₁ inp₂ weight bias : ℕ → ℝ) (B T C b : ℕ) (hC : 0 < C)
    (h : rowEq (T * C) b inp₁ inp₂) :
    rowEq (T * C) b (layernorm_forward inp₁ weight bias B T C)
      (layernorm_forward inp₂ weight bias B T C) := by
  intro j hj
  obtain ⟨e1, e2, e3⟩ := row_decode T C b j hC hj
  have hx : ∀ k, k < C →
      inp₁ ((b * (T * C) + j) / C * C + k) = inp₂ ((b * (T * C) + j) / C * C + k) := by
    intro k hk
    rw [e1, show (b * T + j / C) * C + k = b * (T * C) + (j / C * C + k) by ring]
    apply h
    calc j / C * C + k < j / C * C + C := by omega
      _ = (j / C + 1) * C := by ring
      _ ≤ T * C := Nat.mul_le_mul_right C (Nat.succ_le_of_lt e3)
  simp only [layernorm_forward]
  have hm : (∑ k in Finset.range C, inp₁ ((b * (T * C) + j) / C * C + k)) =
      ∑ k in Finset.range C, inp₂ ((b * (T * C) + j) / C * C + k) :=
    Finset.sum_congr rfl fun k hk => hx k (Finset.mem_range.mp hk)
  rw [hm]
  have hv : (∑ k in Finset.range C,
        (inp₁ ((b * (T * C) + j) / C * C + k) -
            (∑ k' in Finset.range C, inp₂ ((b * (T * C) + j) / C * C + k')) / (C : ℝ)) *
          (inp₁ ((b * (T * C) + j) / C * C + k) -
            (∑ k' in Finset.range C, inp₂ ((b * (T * C) + j) / C * C + k')) / (C : ℝ))) =
      ∑ k in Finset.range C,
        (inp₂ ((b * (T * C) + j) / C * C + k) -
            (∑ k' in Finset.range C, inp₂ ((b * (T * C) + j) / C * C + k')) / (C : ℝ)) *
          (inp₂ ((b * (T * C) + j) / C * C + k) -
            (∑ k' in Finset.range C, inp₂ ((b * (T * C) + j) / C * C + k')) / (C : ℝ)) :=
    Finset.sum_congr rfl fun k hk => by rw [hx k (Finset.mem_range.mp hk)]
  rw [hv, hx ((b * (T * C) + j) % C) (Nat.mod_lt _ hC)]

lemma matmul_forward_naive_congr (inp₁ inp₂ weight : ℕ → ℝ) (bias : Option (ℕ → ℝ))
    (B T C OC idx : ℕ)
    (h : ∀ k, k < C → inp₁ (idx / OC * C + k) = inp₂ (idx / OC * C + k)) :
    matmul_forward_naive inp₁ weight bias B T C OC idx =
      matmul_forward_naive inp₂ weight bias B T C OC idx := by
  simp only [matmul_forward_naive]
  exact foldl_congr_mem _ _ _ _ fun acc k hk => by rw [h k (List.mem_range.mp hk)]

lemma matmul_forward_rowEq (inp₁ inp₂ weight : ℕ → ℝ) (bias : Option (ℕ → ℝ))
    (B T C OC b : ℕ) (h : rowEq (T * C) b inp₁ inp₂) :
    rowEq (T * OC) b (matmul_forward inp₁ weight bias B T C OC)
      (matmul_forward inp₂ weight bias B T C OC) := by
  intro j hj
  have hOC : 0 < OC := by
    rcases Nat.eq_zero_or_pos OC with h0 | h0
    · subst h0; simp at hj
    · exact h0
  obtain ⟨e1, e2, e3⟩ := row_decode T OC b j hOC hj
  rw [matmul_forward_eq_naive, matmul_forward_eq_naive]
  apply matmul_forward_naive_congr
  intro k hk
  rw [e1, show (b * T + j / OC) * C + k = b * (T * C) + (j / OC * C + k) by ring]
  apply h
  calc j / OC * C + k < j / OC * C + C := by omega
    _ = (j / OC + 1) * C := by ring
    _ ≤ T * C := Nat.mul_le_mul_right C (Nat.succ_le_of_lt e3)

lemma att_score_congr (inp₁ inp₂ : ℕ → ℝ) (T C NH b t h t2 : ℕ)
    (hdvd : NH * (C / NH) = C) (hC : 0 < C) (hh : h < NH) (ht : t < T) (ht2 : t2 < T)
    (hrow : rowEq (T * (C * 3)) b inp₁ inp₂) :
    att_score inp₁ T C NH b t h t2 = att_score inp₂ T C NH b t h t2 := by
  simp only [att_score]
  congr 1
  apply Finset.sum_congr rfl
  intro i hi
  have hiC := Finset.mem_range.mp hi
  have hu : h * (C / NH) + i < C := by
    have h1 : h * (C / NH) + i < (h + 1) * (C / NH) := by
      calc h * (C / NH) + i < h * (C / NH) + C / NH := by omega
        _ = (h + 1) * (C / NH) := by ring
    have h2 : (h + 1) * (C / NH) ≤ NH * (C / NH) :=
      Nat.mul_le_mul_right _ (Nat.succ_le_of_lt hh)
    omega
  have hq : b * T * (C * 3) + t * (C * 3) + h * (C / NH) + i =
      b * (T * (C * 3)) + (t * (C * 3) + (h * (C / NH) + i)) := by ring
  have hqlt : t * (C * 3) + (h * (C / NH) + i) < T * (C * 3) := by
    calc t * (C * 3) + (h * (C / NH) + i) < t * (C * 3) + C * 3 := by omega
      _ = (t + 1) * (C * 3) := by ring
      _ ≤ T * (C * 3) := Nat.mul_le_mul_right _ (Nat.succ_le_of_lt ht)
  have hk : b * T * (C * 3) + t2 * (C * 3) + h * (C / NH) + C + i =
      b * (T * (C * 3)) + (t2 * (C * 3) + (h * (C / NH) + C + i)) := by ring
  have hklt : t2 * (C * 3) + (h * (C / NH) + C + i) < T * (C * 3) := by
    calc t2 * (C * 3) + (h * (C / NH) + C + i) < t2 * (C * 3) + C * 3 := by omega
      _ = (t2 + 1) * (C * 3) := by ring
      _ ≤ T * (C * 3) := Nat.mul_le_mul_right _ (Nat.succ_le_of_lt ht2)
  rw [hq, hrow _ hqlt, hk, hrow _ hklt]

lemma att_maxval_congr (inp₁ inp₂ : ℕ → ℝ) (T C NH b t h : ℕ)
    (hdvd : NH * (C / NH) = C) (hC : 0 < C) (hh : h < NH) (ht : t < T)
    (hrow : rowEq (T * (C * 3)) b inp₁ inp₂) :
    att_maxval inp₁ T C NH b t h = att_maxval inp₂ T C NH b t h := by
  simp only [att_maxval]
  apply foldl_congr_mem
  intro acc t2 ht2
  have ht2' : t2 < T :=
    lt_of_le_of_lt (Nat.lt_succ_iff.mp (List.mem_range.mp ht2)) ht
  rw [att_score_congr inp₁ inp₂ T C NH b t h t2 hdvd hC hh ht ht2' hrow]

lemma att_expsum_congr (inp₁ inp₂ : ℕ → ℝ) (T C NH b t h : ℕ)
    (hdvd : NH * (C / NH) = C) (hC : 0 < C) (hh : h < NH) (ht : t < T)
    (hrow : rowEq (T * (C * 3)) b inp₁ inp₂) :
    att_expsum inp₁ T C NH b t h = att_expsum inp₂ T C NH b t h := by
  simp only [att_expsum]
  rw [att_maxval_congr inp₁ inp₂ T C NH b t h hdvd hC hh ht hrow]
  apply Finset.sum_congr rfl
  intro t2 ht2
  have ht2' : t2 < T :=
    lt_of_le_of_lt (Nat.lt_succ_iff.mp (Finset.mem_range.mp ht2)) ht
  rw [att_score_congr inp₁ inp₂ T C NH b t h t2 hdvd hC hh ht ht2' hrow]

lemma att_expsum_inv_congr (inp₁ inp₂ : ℕ → ℝ) (T C NH b t h : ℕ)
    (hdvd : NH * (C / NH) = C) (hC : 0 < C) (hh : h < NH) (ht : t < T)
    (hrow : rowEq (T * (C * 3)) b inp₁ inp₂) :
    att_expsum_inv inp₁ T C NH b t h = att_expsum_inv inp₂ T C NH b t h := by
  simp only [att_expsum_inv]
  rw [att_expsum_congr inp₁ inp₂ T C NH b t h hdvd hC hh ht hrow]

lemma attention_forward_rowEq (inp₁ inp₂ : ℕ → ℝ) (B T C NH b : ℕ)
    (hC : 0 < C) (hdvd : NH * (C / NH) = C)
    (hrow3 : rowEq (T * (3 * C)) b inp₁ inp₂) :
    rowEq (T * C) b (attention_forward inp₁ B T C NH) (attention_forward inp₂ B T C NH) := by
  have hrow : rowEq (T * (C * 3)) b inp₁ inp₂ := by
    have e : T * (C * 3) = T * (3 * C) := by ring
    rw [e]
    exact hrow3
  intro j hj
  obtain ⟨e1, e2, e3⟩ := row_decode T C b j hC hj
  have hT : 0 < T := by
    rcases Nat.eq_zero_or_pos T with h0 | h0
    · subst h0; simp at hj
    · exact h0
  have hhs : 0 < C / NH := by
    rcases Nat.eq_zero_or_pos (C / NH) with h0 | h0
    · rw [h0, Nat.mul_zero] at hdvd; omega
    · exact h0
  have eb : (b * (T * C) + j) / C / T = b := by
    rw [e1, show b * T + j / C = j / C + T * b by ring, Nat.add_mul_div_left _ _ hT,
      Nat.div_eq_of_lt e3, Nat.zero_add]
  have et : (b * (T * C) + j) / C % T = j / C := by
    rw [e1, show b * T + j / C = j / C + T * b by ring, Nat.add_mul_mod_self_left,
      Nat.mod_eq_of_lt e3]
  have hmod : (b * (T * C) + j) % C < C := Nat.mod_lt _ hC
  have hh : (b * (T * C) + j) % C / (C / NH) < NH := by
    rw [Nat.div_lt_iff_lt_mul hhs]
    omega
  simp only [attention_forward]
  rw [eb, et]
  apply Finset.sum_congr rfl
  intro t2 ht2
  have ht2' : t2 < T :=
    lt_of_le_of_lt (Nat.lt_succ_iff.mp (Finset.mem_range.mp ht2)) e3
  have hval : (b * (T * C) + j) % C / (C / NH) * (C / NH) + (b * (T * C) + j) % C % (C / NH) =
      (b * (T * C) + j) % C := by
    rw [Nat.mul_comm]
    exact Nat.div_add_mod _ _
  have hvlt : t2 * (C * 3) +
      ((b * (T * C) + j) % C / (C / NH) * (C / NH) + C * 2 +
        (b * (T * C) + j) % C % (C / NH)) < T * (C * 3) := by
    calc t2 * (C * 3) +
        ((b * (T * C) + j) % C / (C / NH) * (C / NH) + C * 2 +
          (b * (T * C) + j) % C % (C / NH)) < t2 * (C * 3) + C * 3 := by omega
      _ = (t2 + 1) * (C * 3) := by ring
      _ ≤ T * (C * 3) := Nat.mul_le_mul_right _ (Nat.succ_le_of_lt ht2')
  have hidx : b * T * (C * 3) + t2 * (C * 3) +
      (b * (T * C) + j) % C / (C / NH) * (C / NH) + C * 2 +
      (b * (T * C) + j) % C % (C / NH) =
      b * (T * (C * 3)) + (t2 * (C * 3) +
        ((b * (T * C) + j) % C / (C / NH) * (C / NH) + C * 2 +
          (b * (T * C) + j) % C % (C / NH))) := by ring
  rw [att_score_congr inp₁ inp₂ T C NH b (j / C) ((b * (T * C) + j) % C / (C / NH)) t2
      hdvd hC hh e3 ht2' hrow,
    att_maxval_congr inp₁ inp₂ T C NH b (j / C) ((b * (T * C) + j) % C / (C / NH))
      hdvd hC hh e3 hrow,
    att_expsum_inv_congr inp₁ inp₂ T C NH b (j / C) ((b * (T * C) + j) % C / (C / NH))
      hdvd hC hh e3 hrow,
    hidx, hrow _ hvlt]

lemma gelu_forward_rowEq (inp₁ inp₂ : ℕ → ℝ) (stride b : ℕ)
    (h : rowEq stride b inp₁ inp₂) :
    rowEq stride b (gelu_forward inp₁) (gelu_forward inp₂) := by
  intro j hj
  simp only [gelu_forward]
  rw [h j hj]

lemma residual_forward_rowEq (a₁ a₂ c₁ c₂ : ℕ → ℝ) (stride b : ℕ)
    (h1 : rowEq stride b a₁ a₂) (h2 : rowEq stride b c₁ c₂) :
    rowEq stride b (residual_forward a₁ c₁) (residual_forward a₂ c₂) := by
  intro j hj
  simp only [residual_forward]
  rw [h1 j hj, h2 j hj]

lemma layer_forward_rowEq (p : ParameterTensors) (B T C NH b l : ℕ)
    (hC : 0 < C) (hdvd : NH * (C / NH) = C) (r₁ r₂ : ℕ → ℝ)
    (hres : rowEq (T * C) b r₁ r₂) :
    rowEq (T * C) b (layer_forward p B T C NH l r₁) (layer_forward p B T C NH l r₂) := by
  have h1 := layernorm_forward_rowEq r₁ r₂ (fun i => p.ln1w (l * C + i))
    (fun i => p.ln1b (l * C + i)) B T C b hC hres
  have h2 := matmul_forward_rowEq _ _ (fun i => p.qkvw (l * 3 * C * C + i))
    (some (fun i => p.qkvb (l * 3 * C + i))) B T C (3 * C) b h1
  have h3 := attention_forward_rowEq _ _ B T C NH b hC hdvd h2
  have h4 := matmul_forward_rowEq _ _ (fun i => p.attprojw (l * C * C + i))
    (some (fun i => p.attprojb (l * C + i))) B T C C b h3
  have h5 := residual_forward_rowEq _ _ _ _ (T * C) b hres h4
  have h6 := layernorm_forward_rowEq _ _ (fun i => p.ln2w (l * C + i))
    (fun i => p.ln2b (l * C + i)) B T C b hC h5
  have h7 := matmul_forward_rowEq _ _ (fun i => p.fcw (l * 4 * C * C + i))
    (some (fun i => p.fcb (l * 4 * C + i))) B T C (4 * C) b h6
  have h8 := gelu_forward_rowEq _ _ (T * (4 * C)) b h7
  have h9 := matmul_forward_rowEq _ _ (fun i => p.fcprojw (l * C * 4 * C + i))
    (some (fun i => p.fcprojb (l * C + i))) B T (4 * C) C b h8
  exact residual_forward_rowEq _ _ _ _ (T * C) b h5 h9

lemma softmax_forward_rowEq (logits₁ logits₂ : ℕ → ℝ) (B T V Vp b : ℕ) (hVVp : V ≤ Vp)
    (h : rowEq (T * Vp) b logits₁ logits₂) :
    rowEq (T * Vp) b (softmax_forward logits₁ B T V Vp)
      (softmax_forward logits₂ B T V Vp) := by
  intro j hj
  have hVp : 0 < Vp := by
    rcases Nat.eq_zero_or_pos Vp with h0 | h0
    · subst h0; simp at hj
    · exact h0
  obtain ⟨e1, e2, e3⟩ := row_decode T Vp b j hVp hj
  have hread : ∀ i, i < V →
      logits₁ ((b * (T * Vp) + j) / Vp * Vp + i) =
        logits₂ ((b * (T * Vp) + j) / Vp * Vp + i) := by
    intro i hi
    rw [e1, show (b * T + j / Vp) * Vp + i = b * (T * Vp) + (j / Vp * Vp + i) by ring]
    apply h
    have hiVp : i < Vp := lt_of_lt_of_le hi hVVp
    calc j / Vp * Vp + i < j / Vp * Vp + Vp := by omega
      _ = (j / Vp + 1) * Vp := by ring
      _ ≤ T * Vp := Nat.mul_le_mul_right _ (Nat.succ_le_of_lt e3)
  have hmax : softmax_maxval logits₁ V Vp ((b * (T * Vp) + j) / Vp) =
      softmax_maxval logits₂ V Vp ((b * (T * Vp) + j) / Vp) := by
    simp only [softmax_maxval]
    apply foldl_congr_mem
    intro acc i hi
    rw [hread i (List.mem_range.mp hi)]
  have hsum : softmax_sum logits₁ V Vp ((b * (T * Vp) + j) / Vp) =
      softmax_sum logits₂ V Vp ((b * (T * Vp) + j) / Vp) := by
    simp only [softmax_sum]
    rw [hmax]
    apply Finset.sum_congr rfl
    intro i hi
    rw [hread i (Finset.mem_range.mp hi)]
  simp only [softmax_forward]
  by_cases hjV : (b * (T * Vp) + j) % Vp < V
  · rw [if_pos hjV, if_pos hjV, hmax, hsum, hread ((b * (T * Vp) + j) % Vp) hjV]
  · rw [if_neg hjV, if_neg hjV]

lemma crossentropy_forward_rowEq (probs₁ probs₂ : ℕ → ℝ) (tg : ℕ → ℕ) (T Vp b : ℕ)
    (htg : ∀ t, t < T → tg (b * T + t) < Vp)
    (h : rowEq (T * Vp) b probs₁ probs₂) :
    ∀ t, t < T →
      crossentropy_forward probs₁ tg Vp (b * T + t) =
        crossentropy_forward probs₂ tg Vp (b * T + t) := by
  intro t ht
  simp only [crossentropy_forward]
  have hb : (b * T + t) * Vp + tg (b * T + t) =
      b * (T * Vp) + (t * Vp + tg (b * T + t)) := by ring
  have hlt : t * Vp + tg (b * T + t) < T * Vp := by
    have h1 := htg t ht
    calc t * Vp + tg (b * T + t) < t * Vp + Vp := by omega
      _ = (t + 1) * Vp := by ring
      _ ≤ T * Vp := Nat.mul_le_mul_right _ (Nat.succ_le_of_lt ht)
  rw [hb, h _ hlt]

/-- C9: for fixed parameters and config, the forward-pass outputs at batch row
`b` depend only on the tokens of row `b`: two input batches agreeing on row
`b` give identical probability rows and identical per-position losses at row
`b` (attention mixes across time inside one row; no kernel mixes across batch
rows). -/
theorem forward_batch_row_isolation (p : ParameterTensors) (cfg : GPT2Config)
    (inputs₁ inputs₂ tg : ℕ → ℕ) (B T b : ℕ)
    (hC : 0 < cfg.channels)
    (hdvd : cfg.num_heads * (cfg.channels / cfg.num_heads) = cfg.channels)
    (hVVp : cfg.vocab_size ≤ cfg.padded_vocab_size)
    (htg : ∀ t, t < T → tg (b * T + t) < cfg.padded_vocab_size)
    (hin : ∀ t, t < T → inputs₁ (b * T + t) = inputs₂ (b * T + t)) :
    rowEq (T * cfg.padded_vocab_size) b (gpt2_probs p cfg inputs₁ B T)
      (gpt2_probs p cfg inputs₂ B T) ∧
    ∀ t, t < T →
      gpt2_losses p cfg inputs₁ tg B T (b * T + t) =
        gpt2_losses p cfg inputs₂ tg B T (b * T + t) := by
  have hstream : ∀ l, rowEq (T * cfg.channels) b
      (residual_stream p inputs₁ B T cfg.channels cfg.num_heads l)
      (residual_stream p inputs₂ B T cfg.channels cfg.num_heads l) := by
    intro l
    induction l with
    | zero =>
      exact encoder_forward_rowEq inputs₁ inputs₂ p.wte p.wpe T cfg.channels b hC hin
    | succ l ih =>
      exact layer_forward_rowEq p B T cfg.channels cfg.num_heads b l hC hdvd _ _ ih
  have hlnf := layernorm_forward_rowEq _ _ p.lnfw p.lnfb B T cfg.channels b hC
    (hstream cfg.num_layers)
  have hlogits := matmul_forward_rowEq _ _ p.wte none B T cfg.channels
    cfg.padded_vocab_size b hlnf
  have hprobs := softmax_forward_rowEq _ _ B T cfg.vocab_size cfg.padded_vocab_size b
    hVVp hlogits
  exact ⟨hprobs, crossentropy_forward_rowEq _ _ tg T cfg.padded_vocab_size b htg hprobs⟩

/-- Witness for C9: the minimal config with two (identical) input batches. -/
theorem forward_batch_row_isolation_witness :
    rowEq (1 * unit_config.padded_vocab_size) 0
      (gpt2_probs zero_params unit_config (fun _ => 0) 1 1)
      (gpt2_probs zero_params unit_config (fun _ => 0) 1 1) ∧
    ∀ t, t < 1 →
      gpt2_losses zero_params unit_config (fun _ => 0) (fun _ => 0) 1 1 (0 * 1 + t) =
        gpt2_losses zero_params unit_config (fun _ => 0) (fun _ => 0) 1 1 (0 * 1 + t) :=
  forward_batch_row_isolation zero_params unit_config (fun _ => 0) (fun _ => 0)
    (fun _ => 0) 1 1 0 Nat.one_pos rfl (le_refl 1) (fun _ _ => Nat.one_pos)
    (fun _ _ => rfl)
